import Mathlib

/-!
Verification of the DID / key-management interface of `libindy`
(`src/libindy/include/indy_did.h`): the verkey base58 codec with its
abbreviation rule, the identity registry, the two-phase key-rotation
state machine, the pairwise peer store, the cached resolver and the
endpoint directory.  The header ships only declarations and
documentation, so the behavioural definitions below are modelled from
the specification of each operation.
-/

/-- Error kinds surfaced by the DID manager. -/
inductive IndyError where
  | InvalidStructure
  | DoesNotExist
  | CryptoError
  | StorageError
  | ResolutionUnavailable
deriving DecidableEq

/-! ### Base58 primitives -/

/-- The Bitcoin base58 alphabet (no 0, O, I, l), as used for DID and verkey strings. -/
def b58Alphabet : List Char :=
  "123456789ABCDEFGHJKLMNPQRSTUVWXYZabcdefghijkmnopqrstuvwxyz".toList

/-- The character encoding a single base58 digit. -/
def b58CharOfDigit (d : Nat) : Char := b58Alphabet.getD d '?'

/-- Index of a character in a list, accumulating from `i`. -/
def lookupIdx (c : Char) : List Char → Nat → Option Nat
  | [], _ => none
  | a :: as, i => if a = c then some i else lookupIdx c as (i + 1)

/-- The base58 digit denoted by a character, if any. -/
def b58DigitOfChar (c : Char) : Option Nat := lookupIdx c b58Alphabet 0

/-- Little-endian base-`b` digits of `n`, with explicit fuel so that the
recursion is structural and kernel-reducible. -/
def digitsLEAux (b : Nat) : Nat → Nat → List Nat
  | 0, _ => []
  | fuel + 1, n => if n = 0 then [] else n % b :: digitsLEAux b fuel (n / b)

/-- Little-endian base-`b` digits of `n` (empty for `n = 0`). -/
def digitsLE (b n : Nat) : List Nat := digitsLEAux b n n

/-- Value of a little-endian digit list in base `b`. -/
def fromDigitsLE (b : Nat) : List Nat → Nat
  | [] => 0
  | d :: ds => d + b * fromDigitsLE b ds

/-- Base58 encoding of a byte list, as a character list: leading zero
bytes become leading `1` characters, the rest is the base58 numeral of
the big-endian value. -/
def b58encodeL (bytes : List Nat) : List Char :=
  List.replicate (bytes.takeWhile (fun x => x == 0)).length '1' ++
    (digitsLE 58 (fromDigitsLE 256 (bytes.dropWhile (fun x => x == 0)).reverse)).reverse.map
      b58CharOfDigit

/-- Base58 encoding of a byte list, as a string. -/
def b58encode (bytes : List Nat) : String := String.mk (b58encodeL bytes)

/-- Decode every character of a base58 numeral; `none` on the first
character outside the alphabet. -/
def decodeDigits : List Char → Option (List Nat)
  | [] => some []
  | c :: cs =>
    match b58DigitOfChar c, decodeDigits cs with
    | some d, some ds => some (d :: ds)
    | _, _ => none

/-- Base58 decoding of a character list: leading `1` characters become
leading zero bytes, the rest is read as a base58 numeral and written
out as big-endian bytes.  `none` on any character outside the alphabet. -/
def b58decodeL (cs : List Char) : Option (List Nat) :=
  match decodeDigits (cs.dropWhile (fun c => c == '1')) with
  | none => none
  | some ds =>
    some (List.replicate (cs.takeWhile (fun c => c == '1')).length 0 ++
      (digitsLE 256 (fromDigitsLE 58 ds.reverse)).reverse)

/-- Base58 decoding of a string. -/
def b58decode (s : String) : Option (List Nat) := b58decodeL s.toList

/-! ### Bridges to the Mathlib digit functions -/

theorem fromDigitsLE_eq_ofDigits (b : Nat) (l : List Nat) :
    fromDigitsLE b l = Nat.ofDigits b l := by
  induction l with
  | nil => rfl
  | cons d ds ih => simp [fromDigitsLE, Nat.ofDigits, ih]

theorem digitsLEAux_eq_digits (b : Nat) (hb : 2 ≤ b) :
    ∀ fuel n, n ≤ fuel → digitsLEAux b fuel n = Nat.digits b n := by
  intro fuel
  induction fuel with
  | zero =>
    intro n hn
    interval_cases n
    simp [digitsLEAux]
  | succ fuel ih =>
    intro n hn
    by_cases h0 : n = 0
    · subst h0; simp [digitsLEAux]
    · have hpos : 0 < n := Nat.pos_of_ne_zero h0
      rw [Nat.digits_def' (by omega : 1 < b) hpos]
      simp only [digitsLEAux, if_neg h0]
      have : n / b ≤ fuel := by
        have := Nat.div_lt_self hpos (by omega : 1 < b)
        omega
      rw [ih _ this]

theorem digitsLE_eq_digits (b : Nat) (hb : 2 ≤ b) (n : Nat) :
    digitsLE b n = Nat.digits b n :=
  digitsLEAux_eq_digits b hb n n (Nat.le_refl n)

/-! ### Character-level facts about the base58 alphabet -/

theorem b58Alphabet_length : b58Alphabet.length = 58 := by decide

theorem b58DigitOfChar_charOfDigit :
    ∀ d, d < 58 → b58DigitOfChar (b58CharOfDigit d) = some d := by decide

theorem b58CharOfDigit_eq_one_iff :
    ∀ d, d < 58 → (b58CharOfDigit d = '1' ↔ d = 0) := by decide

theorem lookupIdx_spec :
    ∀ (l : List Char) (c : Char) (i d : Nat), lookupIdx c l i = some d →
      ∃ j, d = i + j ∧ j < l.length ∧ l.getD j '?' = c := by
  intro l
  induction l with
  | nil => intro c i d h; simp [lookupIdx] at h
  | cons a as ih =>
    intro c i d h
    simp only [lookupIdx] at h
    by_cases hac : a = c
    · rw [if_pos hac] at h
      cases h
      exact ⟨0, by omega, by simp, by simpa using hac⟩
    · rw [if_neg hac] at h
      obtain ⟨j, hj1, hj2, hj3⟩ := ih c (i + 1) d h
      exact ⟨j + 1, by omega, by simpa using hj2, by simpa using hj3⟩

theorem b58DigitOfChar_spec {c : Char} {d : Nat} (h : b58DigitOfChar c = some d) :
    d < 58 ∧ b58CharOfDigit d = c := by
  obtain ⟨j, hj1, hj2, hj3⟩ := lookupIdx_spec b58Alphabet c 0 d h
  have hd : d = j := by omega
  subst hd
  exact ⟨by simpa [b58Alphabet_length] using hj2, hj3⟩

theorem b58DigitOfChar_eq_zero {c : Char} (h : b58DigitOfChar c = some 0) : c = '1' := by
  have := (b58DigitOfChar_spec h).2
  simpa [b58CharOfDigit, b58Alphabet] using this.symm

theorem decodeDigits_map {ds : List Nat} (h : ∀ d ∈ ds, d < 58) :
    decodeDigits (ds.map b58CharOfDigit) = some ds := by
  induction ds with
  | nil => rfl
  | cons d ds ih =>
    have hd : d < 58 := h d (List.mem_cons_self d ds)
    have hds := ih (fun x hx => h x (List.mem_cons_of_mem d hx))
    simp [decodeDigits, b58DigitOfChar_charOfDigit d hd, hds]

theorem decodeDigits_spec :
    ∀ {cs : List Char} {ds : List Nat}, decodeDigits cs = some ds →
      ds.map b58CharOfDigit = cs ∧ ∀ d ∈ ds, d < 58 := by
  intro cs
  induction cs with
  | nil => intro ds h; simp [decodeDigits] at h; subst h; simp
  | cons c cs ih =>
    intro ds h
    simp only [decodeDigits] at h
    cases hc : b58DigitOfChar c with
    | none => rw [hc] at h; simp at h
    | some d =>
      rw [hc] at h
      cases hcs : decodeDigits cs with
      | none => rw [hcs] at h; simp at h
      | some ds0 =>
        rw [hcs] at h
        simp only [Option.some.injEq] at h
        subst h
        obtain ⟨h1, h2⟩ := ih hcs
        obtain ⟨hd58, hcd⟩ := b58DigitOfChar_spec hc
        refine ⟨by simp [hcd, h1], ?_⟩
        intro x hx
        rcases List.mem_cons.mp hx with hx | hx
        · subst hx; exact hd58
        · exact h2 x hx

/-! ### takeWhile / dropWhile helpers -/

theorem takeWhile_replicate_append {α : Type} (p : α → Bool) (a : α) (hp : p a = true) :
    ∀ (n : Nat) (l : List α),
      (List.replicate n a ++ l).takeWhile p = List.replicate n a ++ l.takeWhile p := by
  intro n
  induction n with
  | zero => intro l; simp
  | succ n ih => intro l; simp [List.replicate_succ, List.takeWhile_cons, hp, ih l]

theorem dropWhile_replicate_append {α : Type} (p : α → Bool) (a : α) (hp : p a = true) :
    ∀ (n : Nat) (l : List α),
      (List.replicate n a ++ l).dropWhile p = l.dropWhile p := by
  intro n
  induction n with
  | zero => intro l; simp
  | succ n ih => intro l; simp [List.replicate_succ, List.dropWhile_cons, hp, ih l]

theorem takeWhile_head_false {α : Type} (p : α → Bool) (x : α) (xs : List α)
    (hx : p x = false) : (x :: xs).takeWhile p = [] := by
  simp [List.takeWhile_cons, hx]

theorem dropWhile_head_false {α : Type} (p : α → Bool) (x : α) (xs : List α)
    (hx : p x = false) : (x :: xs).dropWhile p = x :: xs := by
  simp [List.dropWhile_cons, hx]

theorem dropWhile_head {α : Type} (p : α → Bool) :
    ∀ (l : List α) (x : α) (xs : List α), l.dropWhile p = x :: xs → p x = false := by
  intro l
  induction l with
  | nil => intro x xs h; simp at h
  | cons a as ih =>
    intro x xs h
    by_cases hpa : p a = true
    · rw [List.dropWhile_cons, if_pos hpa] at h
      exact ih x xs h
    · rw [List.dropWhile_cons, if_neg hpa] at h
      cases h
      simpa using hpa

/-! ### Encoding and decoding on a canonical decomposition -/

theorem getLast_reverse_cons {α : Type} (x : α) (xs : List α) (hne : (x :: xs).reverse ≠ []) :
    (x :: xs).reverse.getLast hne = x := by
  have h1 : (x :: xs).reverse.getLast? = some x := by
    rw [List.getLast?_reverse]; rfl
  rw [List.getLast?_eq_getLast _ hne] at h1
  exact Option.some.inj h1

theorem digits_reverse_head_ne_zero {b n : Nat} (hn : n ≠ 0) {d : Nat} {ds : List Nat}
    (h : (Nat.digits b n).reverse = d :: ds) : d ≠ 0 := by
  have hne : Nat.digits b n ≠ [] := Nat.digits_ne_nil_iff_ne_zero.mpr hn
  have h1 : (Nat.digits b n).reverse.head? = some d := by rw [h]; rfl
  rw [List.head?_reverse, List.getLast?_eq_getLast _ hne] at h1
  have h2 := Option.some.inj h1
  rw [← h2]
  exact Nat.getLast_digit_ne_zero b hn

theorem b58encodeL_split (z : Nat) (rest : List Nat)
    (hhead : ∀ r rs, rest = r :: rs → r ≠ 0) :
    b58encodeL (List.replicate z 0 ++ rest) =
      List.replicate z '1' ++
        (digitsLE 58 (fromDigitsLE 256 rest.reverse)).reverse.map b58CharOfDigit := by
  unfold b58encodeL
  have h1 : (List.replicate z 0 ++ rest).takeWhile (fun x => x == 0) = List.replicate z 0 := by
    rw [takeWhile_replicate_append _ _ (by simp) z rest]
    cases rest with
    | nil => simp
    | cons r rs =>
      rw [takeWhile_head_false _ _ _ (by simpa using hhead r rs rfl)]
      simp
  have h2 : (List.replicate z 0 ++ rest).dropWhile (fun x => x == 0) = rest := by
    rw [dropWhile_replicate_append _ _ (by simp) z rest]
    cases rest with
    | nil => simp
    | cons r rs => exact dropWhile_head_false _ _ _ (by simpa using hhead r rs rfl)
  rw [h1, h2, List.length_replicate]

theorem b58decodeL_split (z : Nat) (rest : List Char) (ds : List Nat)
    (hhead : ∀ c cs, rest = c :: cs → c ≠ '1')
    (hdec : decodeDigits rest = some ds) :
    b58decodeL (List.replicate z '1' ++ rest) =
      some (List.replicate z 0 ++ (digitsLE 256 (fromDigitsLE 58 ds.reverse)).reverse) := by
  unfold b58decodeL
  have h1 : (List.replicate z '1' ++ rest).takeWhile (fun c => c == '1') =
      List.replicate z '1' := by
    rw [takeWhile_replicate_append _ _ (by simp) z rest]
    cases rest with
    | nil => simp
    | cons c cs =>
      rw [takeWhile_head_false _ _ _ (by simpa using hhead c cs rfl)]
      simp
  have h2 : (List.replicate z '1' ++ rest).dropWhile (fun c => c == '1') = rest := by
    rw [dropWhile_replicate_append _ _ (by simp) z rest]
    cases rest with
    | nil => simp
    | cons c cs => exact dropWhile_head_false _ _ _ (by simpa using hhead c cs rfl)
  rw [h1, h2, hdec, List.length_replicate]

/-! ### The base58 round trips -/

theorem b58decodeL_range {cs : List Char} {bs : List Nat} (h : b58decodeL cs = some bs) :
    ∀ x ∈ bs, x < 256 := by
  unfold b58decodeL at h
  cases hdec : decodeDigits (cs.dropWhile (fun c => c == '1')) with
  | none => rw [hdec] at h; simp at h
  | some ds =>
    rw [hdec] at h
    have hb := Option.some.inj h
    subst hb
    intro x hx
    rcases List.mem_append.mp hx with hx | hx
    · have := List.eq_of_mem_replicate hx
      omega
    · have hx2 : x ∈ digitsLE 256 (fromDigitsLE 58 ds.reverse) := List.mem_reverse.mp hx
      rw [digitsLE_eq_digits 256 (by norm_num)] at hx2
      exact Nat.digits_lt_base (by norm_num) hx2

theorem b58decodeL_encodeL (bytes : List Nat) (hlt : ∀ x ∈ bytes, x < 256) :
    b58decodeL (b58encodeL bytes) = some bytes := by
  have htw : bytes.takeWhile (fun x => x == 0) =
      List.replicate (bytes.takeWhile (fun x => x == 0)).length 0 := by
    apply List.eq_replicate_of_mem
    intro b hb
    simpa using List.mem_takeWhile_imp hb
  have hsplit : List.replicate (bytes.takeWhile (fun x => x == 0)).length 0 ++
      bytes.dropWhile (fun x => x == 0) = bytes := by
    rw [← htw]; exact List.takeWhile_append_dropWhile _ _
  have hhead : ∀ r rs, bytes.dropWhile (fun x => x == 0) = r :: rs → r ≠ 0 := by
    intro r rs h
    have := dropWhile_head (fun x => x == 0) bytes r rs h
    simpa using this
  have hrest_lt : ∀ x ∈ bytes.dropWhile (fun x => x == 0), x < 256 := by
    intro x hx
    apply hlt
    rw [← hsplit]
    exact List.mem_append_right _ hx
  generalize hzdef : (bytes.takeWhile (fun x => x == 0)).length = z at hsplit
  generalize hrdef : bytes.dropWhile (fun x => x == 0) = rest at hsplit hhead hrest_lt
  rw [← hsplit]
  cases rest with
  | nil =>
    rw [b58encodeL_split z [] (by intro r rs h; simp at h)]
    have hd0 : digitsLE 58 (fromDigitsLE 256 List.nil.reverse) = [] := rfl
    rw [hd0]
    simp only [List.reverse_nil, List.map_nil]
    rw [b58decodeL_split z [] [] (by intro c cs h; simp at h) rfl]
    rfl
  | cons r rs =>
    have hr : r ≠ 0 := hhead r rs rfl
    have hofd := fromDigitsLE_eq_ofDigits 256 (r :: rs).reverse
    have hw1 : ∀ l ∈ (r :: rs).reverse, l < 256 := by
      intro l hl
      exact hrest_lt l (List.mem_reverse.mp hl)
    have hw2 : ∀ h : (r :: rs).reverse ≠ [], ((r :: rs).reverse).getLast h ≠ 0 := by
      intro h
      rw [getLast_reverse_cons r rs h]
      exact hr
    have hdig256 : Nat.digits 256 (Nat.ofDigits 256 (r :: rs).reverse) = (r :: rs).reverse :=
      Nat.digits_ofDigits 256 (by norm_num) _ hw1 hw2
    have hn0 : Nat.ofDigits 256 (r :: rs).reverse ≠ 0 := by
      intro h
      rw [h, Nat.digits_zero] at hdig256
      simp at hdig256
    rw [b58encodeL_split z (r :: rs) (by intro a as h; cases h; exact hr)]
    have h58 : digitsLE 58 (fromDigitsLE 256 (r :: rs).reverse) =
        Nat.digits 58 (Nat.ofDigits 256 (r :: rs).reverse) := by
      rw [hofd, digitsLE_eq_digits 58 (by norm_num)]
    rw [h58]
    have hdne : (Nat.digits 58 (Nat.ofDigits 256 (r :: rs).reverse)).reverse ≠ [] := by
      simp only [ne_eq, List.reverse_eq_nil_iff]
      exact Nat.digits_ne_nil_iff_ne_zero.mpr hn0
    cases heq : (Nat.digits 58 (Nat.ofDigits 256 (r :: rs).reverse)).reverse with
    | nil => exact absurd heq hdne
    | cons d0 ds0 =>
      have hd0 : d0 ≠ 0 := digits_reverse_head_ne_zero hn0 heq
      have hall : ∀ d ∈ d0 :: ds0, d < 58 := by
        rw [← heq]
        intro d hd
        exact Nat.digits_lt_base (by norm_num) (List.mem_reverse.mp hd)
      have hd0lt : d0 < 58 := hall d0 (List.mem_cons_self _ _)
      rw [List.map_cons]
      have hc1 : b58CharOfDigit d0 ≠ '1' := by
        intro hcon
        exact hd0 ((b58CharOfDigit_eq_one_iff d0 hd0lt).mp hcon)
      have hdecmap : decodeDigits (b58CharOfDigit d0 :: List.map b58CharOfDigit ds0) =
          some (d0 :: ds0) := by
        have := decodeDigits_map hall
        simpa using this
      rw [b58decodeL_split z _ (d0 :: ds0) (by intro c cs h; cases h; exact hc1) hdecmap]
      have hrev : (d0 :: ds0).reverse = Nat.digits 58 (Nat.ofDigits 256 (r :: rs).reverse) := by
        rw [← heq, List.reverse_reverse]
      rw [hrev, fromDigitsLE_eq_ofDigits, Nat.ofDigits_digits,
        digitsLE_eq_digits 256 (by norm_num), hdig256, List.reverse_reverse]

theorem b58encodeL_decodeL (cs : List Char) (bs : List Nat) (h : b58decodeL cs = some bs) :
    b58encodeL bs = cs := by
  unfold b58decodeL at h
  cases hdec : decodeDigits (cs.dropWhile (fun c => c == '1')) with
  | none => rw [hdec] at h; simp at h
  | some ds =>
    rw [hdec] at h
    have hb := Option.some.inj h
    have htw : cs.takeWhile (fun c => c == '1') =
        List.replicate (cs.takeWhile (fun c => c == '1')).length '1' := by
      apply List.eq_replicate_of_mem
      intro c hc
      simpa using List.mem_takeWhile_imp hc
    have hsplit : List.replicate (cs.takeWhile (fun c => c == '1')).length '1' ++
        cs.dropWhile (fun c => c == '1') = cs := by
      rw [← htw]; exact List.takeWhile_append_dropWhile _ _
    have hhead : ∀ c cs2, cs.dropWhile (fun c => c == '1') = c :: cs2 → c ≠ '1' := by
      intro c cs2 hc
      have := dropWhile_head (fun c => c == '1') cs c cs2 hc
      simpa using this
    obtain ⟨hmap, hlt58⟩ := decodeDigits_spec hdec
    generalize hzdef : (cs.takeWhile (fun c => c == '1')).length = z at hsplit hb
    generalize hrdef : cs.dropWhile (fun c => c == '1') = rest at hsplit hhead hmap
    rw [← hsplit, ← hb]
    cases hds : ds with
    | nil =>
      subst hds
      have hrest : rest = [] := by simpa using hmap.symm
      subst hrest
      have henc := b58encodeL_split z [] (by intro r rs h0; simp at h0)
      have hd1 : digitsLE 58 (fromDigitsLE 256 ([] : List Nat).reverse) = [] := rfl
      rw [hd1] at henc
      simp only [List.reverse_nil, List.map_nil] at henc
      have hd0 : digitsLE 256 (fromDigitsLE 58 ([] : List Nat).reverse) = [] := rfl
      rw [hd0]
      simp only [List.reverse_nil]
      exact henc
    | cons d0 ds0 =>
      subst hds
      have hrest : rest = b58CharOfDigit d0 :: List.map b58CharOfDigit ds0 := by
        simpa using hmap.symm
      have hd0lt : d0 < 58 := hlt58 d0 (List.mem_cons_self _ _)
      have hd0 : d0 ≠ 0 := by
        intro hcon
        apply hhead (b58CharOfDigit d0) (List.map b58CharOfDigit ds0) hrest
        rw [hcon]
        rfl
      have hw1 : ∀ l ∈ (d0 :: ds0).reverse, l < 58 := by
        intro l hl
        exact hlt58 l (List.mem_reverse.mp hl)
      have hw2 : ∀ h : (d0 :: ds0).reverse ≠ [], ((d0 :: ds0).reverse).getLast h ≠ 0 := by
        intro h
        rw [getLast_reverse_cons d0 ds0 h]
        exact hd0
      have hdig58 : Nat.digits 58 (Nat.ofDigits 58 (d0 :: ds0).reverse) = (d0 :: ds0).reverse :=
        Nat.digits_ofDigits 58 (by norm_num) _ hw1 hw2
      have hm0 : Nat.ofDigits 58 (d0 :: ds0).reverse ≠ 0 := by
        intro hcon
        rw [hcon, Nat.digits_zero] at hdig58
        simp at hdig58
      have h256 : digitsLE 256 (fromDigitsLE 58 (d0 :: ds0).reverse) =
          Nat.digits 256 (Nat.ofDigits 58 (d0 :: ds0).reverse) := by
        rw [fromDigitsLE_eq_ofDigits, digitsLE_eq_digits 256 (by norm_num)]
      rw [h256]
      have hbne : (Nat.digits 256 (Nat.ofDigits 58 (d0 :: ds0).reverse)).reverse ≠ [] := by
        simp only [ne_eq, List.reverse_eq_nil_iff]
        exact Nat.digits_ne_nil_iff_ne_zero.mpr hm0
      cases hbeq : (Nat.digits 256 (Nat.ofDigits 58 (d0 :: ds0).reverse)).reverse with
      | nil => exact absurd hbeq hbne
      | cons b0 bs0 =>
        have hb0 : b0 ≠ 0 := digits_reverse_head_ne_zero hm0 hbeq
        rw [b58encodeL_split z (b0 :: bs0) (by intro a as h0; cases h0; exact hb0)]
        have hrev : (b0 :: bs0).reverse = Nat.digits 256 (Nat.ofDigits 58 (d0 :: ds0).reverse) := by
          rw [← hbeq, List.reverse_reverse]
        rw [hrev, fromDigitsLE_eq_ofDigits, Nat.ofDigits_digits,
          digitsLE_eq_digits 58 (by norm_num), hdig58, List.reverse_reverse, List.map_cons, hrest]

/-! ### String-level codec -/

theorem stringMk_toList (s : String) : String.mk s.toList = s := rfl

theorem b58decode_encode (bytes : List Nat) (hlt : ∀ x ∈ bytes, x < 256) :
    b58decode (b58encode bytes) = some bytes := by
  unfold b58decode b58encode
  exact b58decodeL_encodeL bytes hlt

theorem b58decode_range {s : String} {bs : List Nat} (h : b58decode s = some bs) :
    ∀ x ∈ bs, x < 256 :=
  b58decodeL_range h

/-- Modelled from the spec: the body of `indy_abbreviate_verkey` is not in
the source tree (the header only declares it).  Per the spec, if the first
16 bytes of the decoded full verkey equal the bytes decoded from `did`
(the cryptonym relationship) the result is the remaining key bytes,
base58-encoded and prefixed with the `~` marker; otherwise the full
verkey is returned unchanged.  Malformed base58 input in either argument
fails with `InvalidStructure`. -/
def abbreviate_verkey (did fullVerkey : String) : Except IndyError String :=
  match b58decode did, b58decode fullVerkey with
  | some dbytes, some vbytes =>
    if vbytes.take 16 = dbytes then
      Except.ok (String.mk ('~' :: b58encodeL (vbytes.drop 16)))
    else Except.ok fullVerkey
  | _, _ => Except.error IndyError.InvalidStructure

/-- Modelled from the spec: the inverse direction of the verkey codec,
absent from the source tree.  An abbreviated verkey (marked by a leading
`~`) is expanded by prepending the DID's decoded bytes to its decoded
remainder; a full-form key is returned unchanged. -/
def expand_verkey (did verkey : String) : Except IndyError String :=
  if verkey.toList.head? = some '~' then
    match b58decode did, b58decodeL verkey.toList.tail with
    | some dbytes, some kbytes => Except.ok (b58encode (dbytes ++ kbytes))
    | _, _ => Except.error IndyError.InvalidStructure
  else Except.ok verkey

/-- Claim C3: for every valid `(did, fullVerkey)` pair satisfying the
cryptonym relationship (the first 16 bytes of the decoded full verkey
equal the bytes decoded from the DID), expanding the abbreviation of the
verkey gives back exactly the original full verkey. -/
theorem verkey_codec_roundtrip (did fullVerkey : String) (dbytes vbytes : List Nat)
    (hdid : b58decode did = some dbytes) (hvk : b58decode fullVerkey = some vbytes)
    (hcrypt : vbytes.take 16 = dbytes) :
    Except.bind (abbreviate_verkey did fullVerkey) (expand_verkey did) =
      Except.ok fullVerkey := by
  unfold abbreviate_verkey
  rw [hdid, hvk]
  dsimp only
  rw [if_pos hcrypt]
  show expand_verkey did (String.mk ('~' :: b58encodeL (vbytes.drop 16))) = Except.ok fullVerkey
  unfold expand_verkey
  rw [if_pos (show (String.mk ('~' :: b58encodeL (vbytes.drop 16))).toList.head? =
    some '~' from rfl)]
  have htail : (String.mk ('~' :: b58encodeL (vbytes.drop 16))).toList.tail =
      b58encodeL (vbytes.drop 16) := rfl
  rw [htail, hdid]
  have hdroplt : ∀ x ∈ vbytes.drop 16, x < 256 := by
    intro x hx
    exact b58decode_range hvk x (List.mem_of_mem_drop hx)
  rw [b58decodeL_encodeL (vbytes.drop 16) hdroplt]
  dsimp only
  have happ : dbytes ++ vbytes.drop 16 = vbytes := by
    rw [← hcrypt]
    exact List.take_append_drop 16 vbytes
  rw [happ]
  have henc : b58encodeL vbytes = fullVerkey.toList :=
    b58encodeL_decodeL fullVerkey.toList vbytes hvk
  unfold b58encode
  rw [henc, stringMk_toList]

/-- Claim C4: `abbreviate_verkey` returns the full verkey unchanged when
the decoded verkey's 16-byte prefix does not match the DID's decoded
bytes, and fails with `InvalidStructure` when either argument is
malformed base58. -/
theorem abbreviate_identity_and_invalid :
    (∀ did fv dbytes vbytes, b58decode did = some dbytes → b58decode fv = some vbytes →
      vbytes.take 16 ≠ dbytes → abbreviate_verkey did fv = Except.ok fv) ∧
    (∀ did fv, b58decode did = none ∨ b58decode fv = none →
      abbreviate_verkey did fv = Except.error IndyError.InvalidStructure) := by
  constructor
  · intro did fv dbytes vbytes hd hv hne
    unfold abbreviate_verkey
    rw [hd, hv]
    dsimp only
    rw [if_neg hne]
  · intro did fv h
    unfold abbreviate_verkey
    rcases h with h | h
    · rw [h]
    · cases hfirst : b58decode did with
      | none => rfl
      | some dbytes => rw [h]

/-! ### Concrete codec inputs used by the claim witnesses -/

/-- A 32-byte verkey used as concrete witness material. -/
def vkBytesW : List Nat := (List.range 32).map (fun i => i + 1)

/-- A second 32-byte verkey, unrelated to `vkBytesW`. -/
def vkBytesW2 : List Nat := (List.range 32).map (fun i => i + 2)

/-- DID in the cryptonym relationship with `fvW`. -/
def didW : String := b58encode (vkBytesW.take 16)

/-- Full verkey matching `didW`. -/
def fvW : String := b58encode vkBytesW

/-- Full verkey not matching `didW`. -/
def fvW2 : String := b58encode vkBytesW2

/-- Witness for claim C3 at a concrete cryptonym pair. -/
theorem verkey_codec_roundtrip_witness :
    Except.bind (abbreviate_verkey didW fvW) (expand_verkey didW) = Except.ok fvW :=
  verkey_codec_roundtrip didW fvW (vkBytesW.take 16) vkBytesW (by decide) (by decide)
    (by decide)

/-- Witness for claim C4 at concrete inputs: a non-cryptonym pair is
returned unchanged, malformed base58 fails. -/
theorem abbreviate_identity_and_invalid_witness :
    abbreviate_verkey didW fvW2 = Except.ok fvW2 ∧
    abbreviate_verkey "0" fvW = Except.error IndyError.InvalidStructure :=
  ⟨abbreviate_identity_and_invalid.1 didW fvW2 (vkBytesW.take 16) vkBytesW2 (by decide)
      (by decide) (by decide),
    abbreviate_identity_and_invalid.2 "0" fvW (Or.inl (by decide))⟩

/-! ### The wallet data model

Modelled from the spec: the record types of §3 (DidRecord, PeerRecord,
EndpointRecord) and the wallet state holding them; the secure-store
collaborator is represented by association lists keyed by DID. -/

/-- An owned DID record (§3): `pendingVerkey` is present only mid-rotation. -/
structure DidRecord where
  did : String
  verkey : String
  pendingVerkey : Option String
  cryptoType : String
  metadata : Option String
deriving DecidableEq

/-- A peer (their) DID record; `verkey` absent means the cryptonym convention applies. -/
structure PeerRecord where
  did : String
  verkey : Option String
  lastResolvedAt : Nat
deriving DecidableEq

/-- An endpoint directory record. -/
structure EndpointRecord where
  did : String
  address : String
  transportVerkey : String
  lastResolvedAt : Nat
deriving DecidableEq

/-- The local wallet: owned records, peer records, endpoint records. -/
structure WalletState where
  myDids : List DidRecord
  theirDids : List PeerRecord
  endpoints : List EndpointRecord
deriving DecidableEq

def findMyDid (w : WalletState) (did : String) : Option DidRecord :=
  w.myDids.find? (fun r => r.did == did)

def findTheirDid (w : WalletState) (did : String) : Option PeerRecord :=
  w.theirDids.find? (fun r => r.did == did)

def findEndpoint (w : WalletState) (did : String) : Option EndpointRecord :=
  w.endpoints.find? (fun r => r.did == did)

/-- Replace the first record with the same key, or append. -/
def upsertBy {α : Type} (key : α → String) (r : α) : List α → List α
  | [] => [r]
  | x :: xs => if key x == key r then r :: xs else x :: upsertBy key r xs

/-- Apply `f` to every record stored under key `d`. -/
def updateBy {α : Type} (key : α → String) (d : String) (f : α → α) (l : List α) : List α :=
  l.map (fun x => if key x == d then f x else x)

theorem find?_upsertBy {α : Type} (key : α → String) (r : α) :
    ∀ l : List α, (upsertBy key r l).find? (fun x => key x == key r) = some r := by
  intro l
  induction l with
  | nil => simp [upsertBy, List.find?]
  | cons x xs ih =>
    by_cases h : key x == key r
    · simp [upsertBy, h, List.find?]
    · simp only [upsertBy]
      rw [if_neg h]
      simp only [List.find?]
      rw [show (key x == key r) = false by simpa using h]
      exact ih

theorem find?_upsertBy_ne {α : Type} (key : α → String) (r : α) (d : String)
    (hd : key r ≠ d) :
    ∀ l : List α, (upsertBy key r l).find? (fun x => key x == d) =
      l.find? (fun x => key x == d) := by
  intro l
  induction l with
  | nil =>
    simp only [upsertBy, List.find?]
    rw [show (key r == d) = false by simpa using hd]
  | cons x xs ih =>
    by_cases h : key x == key r
    · have hx : key x = key r := by simpa using h
      simp only [upsertBy]
      rw [if_pos (by simpa using h)]
      simp only [List.find?]
      rw [show (key r == d) = false by simpa using hd,
        show (key x == d) = false by simp [hx]; exact hd]
    · simp only [upsertBy]
      rw [if_neg (by simpa using h)]
      simp only [List.find?]
      cases hxd : key x == d with
      | true => rfl
      | false => exact ih

theorem find?_updateBy {α : Type} (key : α → String) (d : String) (f : α → α)
    (hf : ∀ x, key (f x) = key x) :
    ∀ l : List α, (updateBy key d f l).find? (fun x => key x == d) =
      (l.find? (fun x => key x == d)).map f := by
  intro l
  induction l with
  | nil => simp [updateBy, List.find?]
  | cons x xs ih =>
    simp only [updateBy, List.map_cons]
    by_cases h : key x == d
    · rw [if_pos (by simpa using h)]
      simp only [List.find?]
      rw [show (key (f x) == d) = true by simp [hf x]; simpa using h, h]
      rfl
    · rw [if_neg (by simpa using h)]
      simp only [List.find?]
      rw [show (key x == d) = false by simpa using h]
      exact ih

/-! ### Identity registry and rotation operations -/

/-- Modelled from the spec: only the ed25519 family is supported. -/
def validCryptoType : Option String → Bool
  | none => true
  | some t => t == "ed25519"

/-- Modelled from the spec: a seed, when supplied, must have the
32-character length the crypto provider accepts. -/
def validSeed : Option String → Bool
  | none => true
  | some s => s.length == 32

/-- Identity specification accepted by `indy_create_and_store_my_did`
(`did_json`): optional DID, optional seed, optional crypto type, `cid` flag. -/
structure MyDidSpec where
  did : Option String
  seed : Option String
  cryptoType : Option String
  cid : Bool

/-- Key specification accepted by `indy_replace_keys_start` (`identity_json`). -/
structure RotateSpec where
  seed : Option String
  cryptoType : Option String

/-- Modelled from the spec: `indy_create_and_store_my_did`, whose body is
not in the source tree.  The crypto provider is the function `gen` from
the optional seed to the new verkey bytes.  The DID is the supplied one
verbatim (re-keying path, overwriting any existing record), else the
encoding of the first 16 verkey bytes (`cid = false`) or of the full
verkey (`cid = true`).  Persists `{did, verkey, cryptoType}` and returns
`(did, verkey)`. -/
def create_and_store_my_did (gen : Option String → List Nat) (w : WalletState)
    (s : MyDidSpec) : Except IndyError (WalletState × String × String) :=
  if validCryptoType s.cryptoType then
    if validSeed s.seed then
      let verkey := b58encode (gen s.seed)
      let did :=
        match s.did with
        | some d => d
        | none => if s.cid then b58encode (gen s.seed) else b58encode ((gen s.seed).take 16)
      Except.ok
        ({ w with myDids := upsertBy DidRecord.did ⟨did, verkey, none, "ed25519", none⟩ w.myDids },
          did, verkey)
    else Except.error IndyError.CryptoError
  else Except.error IndyError.CryptoError

/-- Modelled from the spec: `indy_replace_keys_start`, whose body is not
in the source tree.  Generates a new key pair and records it as the
pending verkey of an owned record (overwriting any previous pending
key); returns the not-yet-active verkey.  Fails `DoesNotExist` when the
DID is not owned. -/
def replace_keys_start (gen : Option String → List Nat) (w : WalletState) (did : String)
    (s : RotateSpec) : Except IndyError (WalletState × String) :=
  match findMyDid w did with
  | none => Except.error IndyError.DoesNotExist
  | some _ =>
    if validCryptoType s.cryptoType then
      if validSeed s.seed then
        let f := fun r : DidRecord => { r with pendingVerkey := some (b58encode (gen s.seed)) }
        Except.ok ({ w with myDids := updateBy DidRecord.did did f w.myDids },
          b58encode (gen s.seed))
      else Except.error IndyError.CryptoError
    else Except.error IndyError.CryptoError

/-- Modelled from the spec: `indy_replace_keys_apply`, whose body is not
in the source tree.  Promotes the pending verkey to the active verkey
and clears it; a no-op when no rotation is pending (idempotence); fails
`DoesNotExist` when the DID is not owned. -/
def replace_keys_apply (w : WalletState) (did : String) : Except IndyError WalletState :=
  match findMyDid w did with
  | none => Except.error IndyError.DoesNotExist
  | some r =>
    match r.pendingVerkey with
    | none => Except.ok w
    | some pv =>
      let f := fun x : DidRecord => { x with verkey := pv, pendingVerkey := none }
      Except.ok { w with myDids := updateBy DidRecord.did did f w.myDids }

theorem findMyDid_updateBy (w : WalletState) (did : String) (f : DidRecord → DidRecord)
    (hf : ∀ x, (f x).did = x.did) :
    findMyDid { w with myDids := updateBy DidRecord.did did f w.myDids } did =
      (findMyDid w did).map f := by
  unfold findMyDid
  exact find?_updateBy DidRecord.did did f hf w.myDids

theorem findMyDid_upsert (w : WalletState) (r : DidRecord) :
    findMyDid { w with myDids := upsertBy DidRecord.did r w.myDids } r.did = some r := by
  unfold findMyDid
  exact find?_upsertBy DidRecord.did r w.myDids

theorem replace_keys_apply_not_owned (w : WalletState) (did : String)
    (h : findMyDid w did = none) :
    replace_keys_apply w did = Except.error IndyError.DoesNotExist := by
  unfold replace_keys_apply
  rw [h]

theorem replace_keys_apply_no_pending (w : WalletState) (did : String) (r : DidRecord)
    (hfind : findMyDid w did = some r) (hpv : r.pendingVerkey = none) :
    replace_keys_apply w did = Except.ok w := by
  unfold replace_keys_apply
  rw [hfind]
  dsimp only
  rw [hpv]

theorem replace_keys_apply_of_pending (w : WalletState) (did : String) (r : DidRecord)
    (pv : String) (hfind : findMyDid w did = some r) (hpv : r.pendingVerkey = some pv) :
    ∃ w2, replace_keys_apply w did = Except.ok w2 ∧
      findMyDid w2 did = some { r with verkey := pv, pendingVerkey := none } := by
  unfold replace_keys_apply
  rw [hfind]
  dsimp only
  rw [hpv]
  refine ⟨_, rfl, ?_⟩
  rw [findMyDid_updateBy w did
    (fun x : DidRecord => { x with verkey := pv, pendingVerkey := none }) (fun x => rfl),
    hfind, Option.map_some']

/-- Claim C1: after `replace_keys_start(did, s)` followed by
`replace_keys_apply(did)` on an owned DID, the record's active verkey is
the (encoded) verkey generated from spec `s` by the crypto provider
`gen`, and the pending verkey is cleared (the record is Stable). -/
theorem rotation_start_then_apply (gen : Option String → List Nat) (w : WalletState)
    (did : String) (s : RotateSpec) (w1 : WalletState) (nv : String)
    (hstart : replace_keys_start gen w did s = Except.ok (w1, nv)) :
    nv = b58encode (gen s.seed) ∧
    ∃ w2, replace_keys_apply w1 did = Except.ok w2 ∧
      ∃ r2, findMyDid w2 did = some r2 ∧
        r2.verkey = b58encode (gen s.seed) ∧ r2.pendingVerkey = none := by
  unfold replace_keys_start at hstart
  cases hfind : findMyDid w did with
  | none => rw [hfind] at hstart; simp at hstart
  | some r =>
    rw [hfind] at hstart
    by_cases hct : validCryptoType s.cryptoType
    · rw [if_pos hct] at hstart
      by_cases hvs : validSeed s.seed
      · rw [if_pos hvs] at hstart
        simp only [Except.ok.injEq, Prod.mk.injEq] at hstart
        obtain ⟨hw1, hnv⟩ := hstart
        subst hw1
        subst hnv
        refine ⟨rfl, ?_⟩
        have hfind1 := findMyDid_updateBy w did
          (fun r0 : DidRecord => { r0 with pendingVerkey := some (b58encode (gen s.seed)) })
          (fun x => rfl)
        rw [hfind, Option.map_some'] at hfind1
        obtain ⟨w2, happly, hfind2⟩ :=
          replace_keys_apply_of_pending _ did _ (b58encode (gen s.seed)) hfind1 rfl
        exact ⟨w2, happly, _, hfind2, rfl, rfl⟩
      · rw [if_neg hvs] at hstart; simp at hstart
    · rw [if_neg hct] at hstart; simp at hstart

/-- Claim C2: `replace_keys_apply` is idempotent.  On an owned DID the
first call succeeds and leaves the record Stable, and a second call
succeeds as a no-op (returning the same state, still Stable); on a DID
that is not owned it fails `DoesNotExist`. -/
theorem replace_keys_apply_idempotent (w : WalletState) (did : String) :
    (∀ r, findMyDid w did = some r →
      ∃ w1, replace_keys_apply w did = Except.ok w1 ∧
        (∃ r1, findMyDid w1 did = some r1 ∧ r1.pendingVerkey = none) ∧
        replace_keys_apply w1 did = Except.ok w1) ∧
    (findMyDid w did = none →
      replace_keys_apply w did = Except.error IndyError.DoesNotExist) := by
  constructor
  · intro r hfind
    cases hpv : r.pendingVerkey with
    | none =>
      exact ⟨w, replace_keys_apply_no_pending w did r hfind hpv, ⟨r, hfind, hpv⟩,
        replace_keys_apply_no_pending w did r hfind hpv⟩
    | some pv =>
      obtain ⟨w2, happly, hfind2⟩ := replace_keys_apply_of_pending w did r pv hfind hpv
      exact ⟨w2, happly, ⟨_, hfind2, rfl⟩,
        replace_keys_apply_no_pending w2 did _ hfind2 rfl⟩
  · intro h
    exact replace_keys_apply_not_owned w did h

/-- Claim C8: `create_and_store_my_did` returns the encoded generated
verkey; with no explicit DID the returned DID is the encoding of the
first 16 verkey bytes when `cid` is false and of the full verkey when
`cid` is true; an explicit DID is used verbatim; and the resulting
record is stored under the returned DID, overwriting any previous record
there (re-keying). -/
theorem create_did_derivation (gen : Option String → List Nat) (w : WalletState)
    (s : MyDidSpec) (w1 : WalletState) (d vk : String)
    (h : create_and_store_my_did gen w s = Except.ok (w1, d, vk)) :
    vk = b58encode (gen s.seed) ∧
    (s.did = none →
      d = (if s.cid then b58encode (gen s.seed) else b58encode ((gen s.seed).take 16))) ∧
    (∀ d0, s.did = some d0 → d = d0) ∧
    findMyDid w1 d = some ⟨d, vk, none, "ed25519", none⟩ := by
  unfold create_and_store_my_did at h
  by_cases hct : validCryptoType s.cryptoType
  · rw [if_pos hct] at h
    by_cases hvs : validSeed s.seed
    · rw [if_pos hvs] at h
      simp only [Except.ok.injEq, Prod.mk.injEq] at h
      obtain ⟨hw1, hd, hvk⟩ := h
      subst hw1
      subst hd
      subst hvk
      refine ⟨rfl, ?_, ?_, ?_⟩
      · intro hnone
        rw [hnone]
      · intro d0 hd0
        rw [hd0]
      · exact findMyDid_upsert w _
    · rw [if_neg hvs] at h; simp at h
  · rw [if_neg hct] at h; simp at h

/-! ### Pairwise peer store and cached resolver -/

/-- Identity accepted by `indy_store_their_did` (`identity_json`):
required `did`, optional `verkey`. -/
structure TheirDidSpec where
  did : String
  verkey : Option String

/-- A DID string is structurally valid when it is well-formed base58. -/
def validDidStr (d : String) : Bool := (b58decode d).isSome

/-- A verkey string is structurally valid when it is well-formed base58,
in either full form or abbreviated (`~`-marked) form. -/
def validVerkeyStr (v : String) : Bool :=
  if v.toList.head? = some '~' then (b58decodeL v.toList.tail).isSome
  else (b58decode v).isSome

/-- Modelled from the spec: the cryptonym convention, used when a peer
record stores no verkey — the DID itself names the verkey (`did ==
verkey` per the header), its decoded bytes serving as the verkey's
identifying prefix. -/
def cryptonymVerkey (did : String) : String := did

/-- The verkey a peer record resolves to: the stored one, or the
cryptonym fallback. -/
def peerVerkey (p : PeerRecord) : String :=
  match p.verkey with
  | some v => v
  | none => cryptonymVerkey p.did

/-- Modelled from the spec: `indy_store_their_did`, whose body is not in
the source tree.  Upserts a peer record after structural validation only
(valid encodings); fails `InvalidStructure` otherwise. -/
def store_their_did (w : WalletState) (s : TheirDidSpec) (now : Nat) :
    Except IndyError WalletState :=
  if validDidStr s.did then
    match s.verkey with
    | some v =>
      if validVerkeyStr v then
        Except.ok { w with theirDids := upsertBy PeerRecord.did ⟨s.did, some v, now⟩ w.theirDids }
      else Except.error IndyError.InvalidStructure
    | none =>
      Except.ok { w with theirDids := upsertBy PeerRecord.did ⟨s.did, none, now⟩ w.theirDids }
  else Except.error IndyError.InvalidStructure

/-- Result of a resolver call: the outcome together with the list of
DIDs for which a network lookup was issued. -/
structure ResolveOut (α : Type) where
  result : Except IndyError (WalletState × α)
  netCalls : List String

instance {ε α : Type} [DecidableEq ε] [DecidableEq α] : DecidableEq (Except ε α) := fun a b =>
  match a, b with
  | Except.error e1, Except.error e2 =>
    if h : e1 = e2 then isTrue (by rw [h])
    else isFalse (fun hc => h (by cases hc; rfl))
  | Except.ok a1, Except.ok a2 =>
    if h : a1 = a2 then isTrue (by rw [h])
    else isFalse (fun hc => h (by cases hc; rfl))
  | Except.error _, Except.ok _ => isFalse (fun hc => Except.noConfusion hc)
  | Except.ok _, Except.error _ => isFalse (fun hc => Except.noConfusion hc)

instance {α : Type} [DecidableEq α] : DecidableEq (ResolveOut α) := fun a b =>
  match a, b with
  | ⟨r1, n1⟩, ⟨r2, n2⟩ =>
    if h1 : r1 = r2 then
      if h2 : n1 = n2 then isTrue (by rw [h1, h2])
      else isFalse (fun h => h2 (congrArg ResolveOut.netCalls h))
    else isFalse (fun h => h1 (congrArg ResolveOut.result h))

/-- Modelled from the spec: `indy_key_for_did`, whose body is not in the
source tree.  Owned records are authoritative (step 1); else the peer
cache is consulted and returned when fresh per the caller-supplied
policy (step 2); else the network is queried, refreshing the cache on
success (step 3); on network unavailability a stale cached value is
returned if one exists, else the call fails `ResolutionUnavailable`
(step 4). -/
def key_for_did (net : String → Option String) (freshPol : Nat → Bool) (now : Nat)
    (w : WalletState) (did : String) : ResolveOut String :=
  match findMyDid w did with
  | some r => ⟨Except.ok (w, r.verkey), []⟩
  | none =>
    match findTheirDid w did with
    | some p =>
      if freshPol p.lastResolvedAt then ⟨Except.ok (w, peerVerkey p), []⟩
      else
        match net did with
        | some vk =>
          let wr := { w with theirDids := upsertBy PeerRecord.did ⟨did, some vk, now⟩ w.theirDids }
          ⟨Except.ok (wr, vk), [did]⟩
        | none => ⟨Except.ok (w, peerVerkey p), [did]⟩
    | none =>
      match net did with
      | some vk =>
        let wr := { w with theirDids := upsertBy PeerRecord.did ⟨did, some vk, now⟩ w.theirDids }
        ⟨Except.ok (wr, vk), [did]⟩
      | none => ⟨Except.error IndyError.ResolutionUnavailable, [did]⟩

/-- Modelled from the spec: `indy_key_for_local_did`, whose body is not
in the source tree.  Performs steps 1-2 only: owned records, then the
peer store (with the cryptonym fallback), never the network; fails
`DoesNotExist` when the DID is absent from all local records. -/
def key_for_local_did (w : WalletState) (did : String) : ResolveOut String :=
  match findMyDid w did with
  | some r => ⟨Except.ok (w, r.verkey), []⟩
  | none =>
    match findTheirDid w did with
    | some p => ⟨Except.ok (w, peerVerkey p), []⟩
    | none => ⟨Except.error IndyError.DoesNotExist, []⟩

/-- Modelled from the spec: `indy_set_endpoint_for_did`, whose body is
not in the source tree.  A purely local upsert of the endpoint record;
the operation takes no pool handle, so no network lookup is ever issued
(empty network-call list). -/
def set_endpoint_for_did (w : WalletState) (did address transportKey : String) (now : Nat) :
    WalletState × List String :=
  let wr := { w with endpoints := upsertBy EndpointRecord.did ⟨did, address, transportKey, now⟩ w.endpoints }
  (wr, [])

/-- Modelled from the spec: `indy_get_endpoint_for_did`, whose body is
not in the source tree.  The cached-resolver strategy instantiated for
endpoints: cache when fresh, else network (which takes the pool handle),
else stale cache, else `ResolutionUnavailable`. -/
def get_endpoint_for_did (net : String → Option (String × String)) (freshPol : Nat → Bool)
    (now : Nat) (w : WalletState) (did : String) : ResolveOut (String × String) :=
  match findEndpoint w did with
  | some e =>
    if freshPol e.lastResolvedAt then ⟨Except.ok (w, (e.address, e.transportVerkey)), []⟩
    else
      match net did with
      | some av =>
        let wr := { w with endpoints := upsertBy EndpointRecord.did ⟨did, av.1, av.2, now⟩ w.endpoints }
        ⟨Except.ok (wr, av), [did]⟩
      | none => ⟨Except.ok (w, (e.address, e.transportVerkey)), [did]⟩
  | none =>
    match net did with
    | some av =>
      let wr := { w with endpoints := upsertBy EndpointRecord.did ⟨did, av.1, av.2, now⟩ w.endpoints }
      ⟨Except.ok (wr, av), [did]⟩
    | none => ⟨Except.error IndyError.ResolutionUnavailable, [did]⟩

theorem findTheirDid_upsert (w : WalletState) (p : PeerRecord) :
    findTheirDid { w with theirDids := upsertBy PeerRecord.did p w.theirDids } p.did = some p := by
  unfold findTheirDid
  exact find?_upsertBy PeerRecord.did p w.theirDids

theorem findEndpoint_upsert (w : WalletState) (e : EndpointRecord) :
    findEndpoint { w with endpoints := upsertBy EndpointRecord.did e w.endpoints } e.did = some e := by
  unfold findEndpoint
  exact find?_upsertBy EndpointRecord.did e w.endpoints

/-- Claim C5: for a non-owned DID with a cached peer entry that is stale
per the freshness policy, when the network lookup is unavailable the
resolver returns the stale cached value (after attempting the lookup)
and does not fail. -/
theorem resolve_stale_degrades (net : String → Option String) (freshPol : Nat → Bool)
    (now : Nat) (w : WalletState) (did : String) (p : PeerRecord)
    (hmy : findMyDid w did = none) (hp : findTheirDid w did = some p)
    (hstale : freshPol p.lastResolvedAt = false) (hnet : net did = none) :
    key_for_did net freshPol now w did = ⟨Except.ok (w, peerVerkey p), [did]⟩ := by
  unfold key_for_did
  rw [hmy]
  dsimp only
  rw [hp]
  dsimp only
  rw [if_neg (by rw [hstale]; exact Bool.false_ne_true)]
  rw [hnet]

/-- Claim C6: for a DID that is neither owned nor cached, an unavailable
network lookup makes the resolver fail with `ResolutionUnavailable` and
no other error kind. -/
theorem resolve_miss_unavailable (net : String → Option String) (freshPol : Nat → Bool)
    (now : Nat) (w : WalletState) (did : String)
    (hmy : findMyDid w did = none) (hp : findTheirDid w did = none) (hnet : net did = none) :
    key_for_did net freshPol now w did =
      ⟨Except.error IndyError.ResolutionUnavailable, [did]⟩ := by
  unfold key_for_did
  rw [hmy]
  dsimp only
  rw [hp]
  dsimp only
  rw [hnet]

/-- Claim C7: local-only resolution never issues a network lookup; an
owned DID resolves to the owned record's current verkey directly, and a
DID absent from all local records fails `DoesNotExist`. -/
theorem local_resolution_no_network (w : WalletState) (did : String) :
    (key_for_local_did w did).netCalls = [] ∧
    (∀ r, findMyDid w did = some r →
      (key_for_local_did w did).result = Except.ok (w, r.verkey)) ∧
    (findMyDid w did = none → findTheirDid w did = none →
      (key_for_local_did w did).result = Except.error IndyError.DoesNotExist) := by
  refine ⟨?_, ?_, ?_⟩
  · unfold key_for_local_did
    cases hf : findMyDid w did with
    | some r => rfl
    | none =>
      dsimp only
      cases ht : findTheirDid w did with
      | some p => rfl
      | none => rfl
  · intro r h
    unfold key_for_local_did
    rw [h]
  · intro h1 h2
    unfold key_for_local_did
    rw [h1]
    dsimp only
    rw [h2]

/-- Claim C9: storing a peer identity that carries a DID but no verkey
succeeds after structural validation alone, and a subsequent local-only
resolution of that (non-owned) DID returns the cryptonym-convention
verkey rather than failing. -/
theorem store_cryptonym_then_local_resolve (w : WalletState) (did : String) (now : Nat)
    (hvalid : validDidStr did = true) (hmy : findMyDid w did = none) :
    ∃ w1, store_their_did w ⟨did, none⟩ now = Except.ok w1 ∧
      key_for_local_did w1 did = ⟨Except.ok (w1, cryptonymVerkey did), []⟩ := by
  unfold store_their_did
  rw [if_pos hvalid]
  dsimp only
  refine ⟨_, rfl, ?_⟩
  unfold key_for_local_did
  rw [show findMyDid
    { w with theirDids := upsertBy PeerRecord.did ⟨did, none, now⟩ w.theirDids } did =
    none from hmy]
  dsimp only
  rw [show findTheirDid
    { w with theirDids := upsertBy PeerRecord.did ⟨did, none, now⟩ w.theirDids } did =
    some ⟨did, none, now⟩ from findTheirDid_upsert w ⟨did, none, now⟩]
  rfl

/-- Claim C10: `set_endpoint_for_did` takes no pool handle: the endpoint
upsert is a purely local write (no network lookup, owned and peer
records untouched, the endpoint record stored), while the retrieval
operation `get_endpoint_for_did`, which does take the pool handle, can
consult the ledger. -/
theorem set_endpoint_local_frame (w : WalletState) (did address tk : String) (now : Nat) :
    (set_endpoint_for_did w did address tk now).2 = [] ∧
    (set_endpoint_for_did w did address tk now).1.myDids = w.myDids ∧
    (set_endpoint_for_did w did address tk now).1.theirDids = w.theirDids ∧
    findEndpoint (set_endpoint_for_did w did address tk now).1 did =
      some ⟨did, address, tk, now⟩ ∧
    ∃ net freshPol now2 w2 d2,
      (get_endpoint_for_did net freshPol now2 w2 d2).netCalls ≠ [] := by
  refine ⟨rfl, rfl, rfl, ?_, ?_⟩
  · exact findEndpoint_upsert w ⟨did, address, tk, now⟩
  · exact ⟨fun _ => none, fun _ => true, 0, ⟨[], [], []⟩, "X", by decide⟩

/-! ### Concrete wallet material used by the claim witnesses -/

/-- A concrete crypto provider returning a short key. -/
def genW : Option String → List Nat := fun _ => [5, 6, 7]

/-- A concrete crypto provider returning a 32-byte key. -/
def genW32 : Option String → List Nat := fun _ => vkBytesW

/-- A wallet owning one stable DID record. -/
def walletW : WalletState := ⟨[⟨"D1", "VK0", none, "ed25519", none⟩], [], []⟩

/-- A rotation spec with no seed and default crypto type. -/
def rotSpecW : RotateSpec := ⟨none, none⟩

/-- `walletW` after `replace_keys_start` under `genW`. -/
def walletW1 : WalletState :=
  ⟨[⟨"D1", "VK0", some (b58encode [5, 6, 7]), "ed25519", none⟩], [], []⟩

/-- An identity spec with everything defaulted. -/
def myDidSpecW : MyDidSpec := ⟨none, none, none, false⟩

/-- The wallet created by `create_and_store_my_did` under `genW32`. -/
def wCreateW : WalletState := ⟨[⟨didW, fvW, none, "ed25519", none⟩], [], []⟩

/-- A cached peer record. -/
def peerW : PeerRecord := ⟨"P1", some "PVK", 10⟩

/-- A wallet holding only the cached peer record `peerW`. -/
def walletPeerW : WalletState := ⟨[], [peerW], []⟩

/-- Witness for claim C1 at a concrete rotation. -/
theorem rotation_start_then_apply_witness :
    b58encode [5, 6, 7] = b58encode (genW rotSpecW.seed) ∧
    ∃ w2, replace_keys_apply walletW1 "D1" = Except.ok w2 ∧
      ∃ r2, findMyDid w2 "D1" = some r2 ∧
        r2.verkey = b58encode (genW rotSpecW.seed) ∧ r2.pendingVerkey = none :=
  rotation_start_then_apply genW walletW "D1" rotSpecW walletW1 (b58encode [5, 6, 7])
    (by decide)

/-- Witness for claim C2 at a concrete pending rotation and at a missing DID. -/
theorem replace_keys_apply_idempotent_witness :
    (∃ w1, replace_keys_apply walletW1 "D1" = Except.ok w1 ∧
      (∃ r1, findMyDid w1 "D1" = some r1 ∧ r1.pendingVerkey = none) ∧
      replace_keys_apply w1 "D1" = Except.ok w1) ∧
    replace_keys_apply ⟨[], [], []⟩ "D1" = Except.error IndyError.DoesNotExist :=
  ⟨(replace_keys_apply_idempotent walletW1 "D1").1
      ⟨"D1", "VK0", some (b58encode [5, 6, 7]), "ed25519", none⟩ (by decide),
    (replace_keys_apply_idempotent ⟨[], [], []⟩ "D1").2 (by decide)⟩

/-- Witness for claim C5: stale cache plus network outage returns the
cached value. -/
theorem resolve_stale_degrades_witness :
    key_for_did (fun _ => none) (fun _ => false) 99 walletPeerW "P1" =
      ⟨Except.ok (walletPeerW, peerVerkey peerW), ["P1"]⟩ :=
  resolve_stale_degrades (fun _ => none) (fun _ => false) 99 walletPeerW "P1" peerW
    (by decide) (by decide) (by decide) rfl

/-- Witness for claim C6: no cache plus network outage fails with
`ResolutionUnavailable`. -/
theorem resolve_miss_unavailable_witness :
    key_for_did (fun _ => none) (fun _ => false) 0 ⟨[], [], []⟩ "P2" =
      ⟨Except.error IndyError.ResolutionUnavailable, ["P2"]⟩ :=
  resolve_miss_unavailable (fun _ => none) (fun _ => false) 0 ⟨[], [], []⟩ "P2"
    (by decide) (by decide) rfl

/-- Witness for claim C7 at a concrete owned DID. -/
theorem local_resolution_no_network_witness :
    (key_for_local_did walletW "D1").netCalls = [] ∧
    (key_for_local_did walletW "D1").result = Except.ok (walletW, "VK0") :=
  ⟨(local_resolution_no_network walletW "D1").1,
    (local_resolution_no_network walletW "D1").2.1 ⟨"D1", "VK0", none, "ed25519", none⟩
      (by decide)⟩

/-- Witness for claim C8 at a concrete creation with defaulted spec. -/
theorem create_did_derivation_witness :
    fvW = b58encode (genW32 myDidSpecW.seed) ∧
    (myDidSpecW.did = none →
      didW = (if myDidSpecW.cid then b58encode (genW32 myDidSpecW.seed)
        else b58encode ((genW32 myDidSpecW.seed).take 16))) ∧
    (∀ d0, myDidSpecW.did = some d0 → didW = d0) ∧
    findMyDid wCreateW didW = some ⟨didW, fvW, none, "ed25519", none⟩ :=
  create_did_derivation genW32 ⟨[], [], []⟩ myDidSpecW wCreateW didW fvW (by decide)

/-- Witness for claim C9 at the spec's own scenario DID. -/
theorem store_cryptonym_then_local_resolve_witness :
    ∃ w1, store_their_did ⟨[], [], []⟩ ⟨"8wZcEriaNLNKtteJvx7f8i", none⟩ 7 = Except.ok w1 ∧
      key_for_local_did w1 "8wZcEriaNLNKtteJvx7f8i" =
        ⟨Except.ok (w1, cryptonymVerkey "8wZcEriaNLNKtteJvx7f8i"), []⟩ :=
  store_cryptonym_then_local_resolve ⟨[], [], []⟩ "8wZcEriaNLNKtteJvx7f8i" 7 (by decide) rfl
